import Mathlib

/-
Verification of the base-N codec layer (base/base64.cpp) and the null name
codec (fs/NullNameIO.cpp) of an encrypting filesystem.

Modelling conventions:
* Byte buffers (`byte *` plus a length) are modelled as `List Nat`; where a
  claim is about genuine bytes we carry the hypothesis that every element is
  below 256 (or below `2 ^ src2Pow` where the claim requires it).
* The C accumulator `unsigned long work` never exceeds 2 ^ 16 on byte inputs
  (the drain loops keep `workBits` below `dst2Pow + 8` and each `|=` adds a
  byte shifted by less than 8), far below 2 ^ 64, so unreduced `Nat`
  arithmetic is an exact model of the 64-bit accumulator.
* `work & mask` with `mask = (1 << dst2Pow) - 1` is `work &&& ((1 <<< b) - 1)`,
  `work >>= b` is `work >>> b`, `work |= v << wb` is `work ||| (v <<< wb)`.
* In `changeBase2Inline` the C variable `workBits` is an `int`.  Starting from
  the public entry point (`workBits = 0`) it is non-negative at every point
  where its value is read, except after the final unconditional emit, where it
  is only ever compared against 0.  Nat subtraction (which truncates at 0)
  therefore models it exactly: `workBits - b > 0` in Nat agrees with the C
  comparison `workBits - b > 0` on int whenever `workBits ≥ 0`.
* The C functions diverge when `dst2Pow = 0` (their drain loops never
  terminate); the guards `0 < b` in the recursive definitions record this and
  make the Lean functions total by returning the empty output there.
-/

namespace EncFS

/-- Inner emission loop of `changeBase2`:
`while(workBits >= dst2Pow) { *dst++ = work & mask; work >>= dst2Pow; workBits -= dst2Pow; }`
with `mask = (1 << dst2Pow) - 1`.  Returns the emitted symbols in order
together with the final `work` and `workBits`. -/
def drain (b work workBits : Nat) : List Nat × Nat × Nat :=
  if h : 0 < b ∧ b ≤ workBits then
    let r := drain b (work >>> b) (workBits - b)
    ((work &&& ((1 <<< b) - 1)) :: r.1, r.2.1, r.2.2)
  else ([], work, workBits)
termination_by workBits
decreasing_by omega

/-- Outer loop of `changeBase2`:
`while(src != end) { work |= ((unsigned long)(*src++)) << workBits; workBits += src2Pow; <drain> }`.
Returns the emitted symbols together with the final `work` and `workBits`. -/
def changeBase2Loop (a b : Nat) : List Nat → Nat → Nat → List Nat × Nat × Nat
  | [], work, workBits => ([], work, workBits)
  | v :: rest, work, workBits =>
    let d := drain b (work ||| (v <<< workBits)) (workBits + a)
    let r := changeBase2Loop a b rest d.2.1 d.2.2
    (d.1 ++ r.1, r.2.1, r.2.2)

/-- `void changeBase2(byte *src, int srcLen, int src2Pow, byte *dst, int dstLen, int dst2Pow)`.
After the main loop the partial tail symbol:
`if(workBits && ((dst - origDst) < dstLen)) *dst++ = work & mask;`.
Arguments: `src` with its length folded in, `a = src2Pow`, `b = dst2Pow`,
`dstLen` the destination capacity. -/
def changeBase2 (src : List Nat) (a b dstLen : Nat) : List Nat :=
  let r := changeBase2Loop a b src 0 0
  if r.2.2 ≠ 0 ∧ r.1.length < dstLen then r.1 ++ [r.2.1 &&& ((1 <<< b) - 1)] else r.1

/-- Consume loop of the static recursive `changeBase2Inline` helper:
`while(srcLen && workBits < dst2Pow) { work |= ((unsigned long)(*src++)) << workBits; workBits += src2Pow; --srcLen; }`.
Returns the remaining input together with the updated `work` and `workBits`. -/
def changeBase2InlineLoop (a b : Nat) : List Nat → Nat → Nat → List Nat × Nat × Nat
  | [], work, workBits => ([], work, workBits)
  | v :: rest, work, workBits =>
    if workBits < b then
      changeBase2InlineLoop a b rest (work ||| (v <<< workBits)) (workBits + a)
    else (v :: rest, work, workBits)

/-- Tail of the terminal branch of the static `changeBase2Inline` helper:
`if(outputPartialLastByte) { while(workBits > 0) { *outLoc++ = work & mask; work >>= dst2Pow; workBits -= dst2Pow; } }`. -/
def flagEmits (b work workBits : Nat) : List Nat :=
  if h : 0 < b ∧ 0 < workBits then
    (work &&& ((1 <<< b) - 1)) :: flagEmits b (work >>> b) (workBits - b)
  else []
termination_by workBits
decreasing_by omega

/-- The static recursive helper
`static void changeBase2Inline(byte *src, int srcLen, int src2Pow, int dst2Pow, bool outputPartialLastByte, unsigned long work, int workBits, byte *outLoc)`.
Each level runs the consume loop, computes `outVal = work & mask`, shifts the
accumulator, and either recurses (writing `outVal` in front of the recursive
output, as the C code writes it at `outLoc` below the `outLoc+1` of the recursion)
or, with no input left, writes `outVal` followed by the flag-guarded tail. -/
def changeBase2InlineRec (a b : Nat) (flag : Bool) (src : List Nat) (work workBits : Nat) :
    List Nat :=
  if hb : 0 < b then
    let r := changeBase2InlineLoop a b src work workBits
    if hs : r.1 ≠ [] then
      (r.2.1 &&& ((1 <<< b) - 1)) ::
        changeBase2InlineRec a b flag r.1 (r.2.1 >>> b) (r.2.2 - b)
    else
      (r.2.1 &&& ((1 <<< b) - 1)) ::
        (if flag then flagEmits b (r.2.1 >>> b) (r.2.2 - b) else [])
  else []
termination_by (a + b) * src.length + workBits
decreasing_by
  have key : ∀ (l : List Nat) (w wbb : Nat), ∃ c, c ≤ l.length ∧
      (changeBase2InlineLoop a b l w wbb).1.length = l.length - c ∧
      (changeBase2InlineLoop a b l w wbb).2.2 = wbb + c * a ∧
      ((changeBase2InlineLoop a b l w wbb).1 = [] ∨
        b ≤ (changeBase2InlineLoop a b l w wbb).2.2) := by
    intro l
    induction l with
    | nil => intro w wbb; exact ⟨0, by simp [changeBase2InlineLoop]⟩
    | cons v rest ih =>
      intro w wbb
      by_cases hwb : wbb < b
      · obtain ⟨c, hc, h1, h2, h3⟩ := ih (w ||| (v <<< wbb)) (wbb + a)
        refine ⟨c + 1, by simpa using Nat.succ_le_succ hc, ?_, ?_, ?_⟩
        · simpa [changeBase2InlineLoop, hwb] using h1
        · simp only [changeBase2InlineLoop, if_pos hwb, h2]; ring
        · simpa [changeBase2InlineLoop, hwb] using h3
      · exact ⟨0, Nat.zero_le _, by simp [changeBase2InlineLoop, hwb],
          by simp [changeBase2InlineLoop, hwb], Or.inr (by
            simp only [changeBase2InlineLoop, if_neg hwb]; omega)⟩
  have main : ∀ (n c wb : Nat), c ≤ n → b ≤ wb + c * a →
      (a + b) * (n - c) + (wb + c * a - b) < (a + b) * n + wb := by
    intro n c wb hcn hble
    have h0 : (n - c) + c = n := Nat.sub_add_cancel hcn
    have h1 : (a + b) * n = (a + b) * (n - c) + (c * a + b * c) := by
      calc (a + b) * n = (a + b) * ((n - c) + c) := by rw [h0]
        _ = (a + b) * (n - c) + (c * a + b * c) := by ring
    rw [h1]
    generalize (a + b) * (n - c) = Q
    generalize hP : c * a = P at *
    generalize b * c = R
    omega
  obtain ⟨c, hc, h1, h2, h3⟩ := key src work workBits
  rcases h3 with h3 | h3
  · exact absurd h3 hs
  · rw [h2] at h3
    rw [h1, h2]
    exact main src.length c workBits hc h3

/-- The public entry point
`void changeBase2Inline(byte *src, int srcLen, int src2Pow, int dst2Pow, bool outputPartialLastByte)`;
it calls the recursive helper with `work = 0, workBits = 0, outLoc = 0`. -/
def changeBase2Inline (src : List Nat) (a b : Nat) (flag : Bool) : List Nat :=
  changeBase2InlineRec a b flag src 0 0

/-- Specification-side view of a bit stream: the first `count` chunks of `b`
bits each of the natural number `S`, least significant first. -/
def bitChunks (b : Nat) : Nat → Nat → List Nat
  | _, 0 => []
  | S, count + 1 => (S % 2 ^ b) :: bitChunks b (S / 2 ^ b) count

/-- Specification-side view of the input of `changeBase2`: the bitwise-or of
the bytes of `l`, each placed `a` bits further up.  When every byte of `l` is
below `2 ^ a` this is the little-endian concatenation of the `a`-bit symbols. -/
def orStream (a : Nat) : List Nat → Nat
  | [] => 0
  | v :: rest => v ||| (orStream a rest <<< a)

/-- Alphabet of the non-standard base-64 encoding, as byte values:
`,-0123456789ABCDEFGHIJKLMNOPQRSTUVWXYZabcdefghijklmnopqrstuvwxyz`. -/
def b64Alphabet : List Nat :=
  [44, 45, 48, 49, 50, 51, 52, 53, 54, 55, 56, 57,
   65, 66, 67, 68, 69, 70, 71, 72, 73, 74, 75, 76, 77, 78, 79, 80, 81, 82,
   83, 84, 85, 86, 87, 88, 89, 90,
   97, 98, 99, 100, 101, 102, 103, 104, 105, 106, 107, 108, 109, 110, 111,
   112, 113, 114, 115, 116, 117, 118, 119, 120, 121, 122]

/-- Table `B642AsciiTable` of the source, the string `,-0123456789` as byte
values. -/
def b642AsciiTable : List Nat := [44, 45, 48, 49, 50, 51, 52, 53, 54, 55, 56, 57]

/-- Per-byte body of `void B64ToAscii(byte *in, int length)`:
`int ch = in[offset]; if(ch > 11) { if(ch > 37) ch += 'a' - 38; else ch += 'A' - 12; } else ch = B642AsciiTable[ch]; in[offset] = ch;`.
The store into a byte truncates mod 256 (no truncation occurs for `ch < 64`). -/
def B64ToAsciiChar (ch : Nat) : Nat :=
  if ch > 11 then
    (if ch > 37 then (ch + 97 - 38) % 256 else (ch + 65 - 12) % 256)
  else b642AsciiTable.getD ch 0

/-- `B64ToAscii` rewrites every byte of the buffer in place. -/
def B64ToAscii (l : List Nat) : List Nat := l.map B64ToAsciiChar

/-- Table `Ascii2B64Table` of the source: 44 spaces, `01`, 2 spaces,
`23456789:;`, 7 spaces (65 entries; 32 is the space character). -/
def ascii2B64Table : List Nat :=
  List.replicate 44 32 ++ [48, 49] ++ List.replicate 2 32 ++
    [50, 51, 52, 53, 54, 55, 56, 57, 58, 59] ++ List.replicate 7 32

/-- Per-byte body of `void AsciiToB64(byte *out, const byte *in, int length)`:
`byte ch = *in++; if(ch >= 'A') { if(ch >= 'a') ch += 38 - 'a'; else ch += 12 - 'A'; } else ch = Ascii2B64Table[ch] - '0';`.
In the two upper branches the sum stays non-negative, so plain subtraction is
exact; the table branch subtracts `'0' = 48` from a byte that may be the space
32, wrapping mod 256. -/
def AsciiToB64Char (ch : Nat) : Nat :=
  if ch ≥ 65 then
    (if ch ≥ 97 then ch + 38 - 97 else ch + 12 - 65)
  else (ascii2B64Table.getD ch 32 + 256 - 48) % 256

/-- `AsciiToB64(byte *in, int length)` forwards to the two-buffer variant with
`out = in`; per byte it applies `AsciiToB64Char`. -/
def AsciiToB64 (l : List Nat) : List Nat := l.map AsciiToB64Char

/-- Per-byte body of `void B32ToAscii(byte *buf, int len)`:
`int ch = buf[offset]; if (ch >= 0 && ch < 26) ch += 'A'; else ch += '2' - 26; buf[offset] = ch;`
(`ch >= 0` always holds for a byte; the byte store truncates mod 256). -/
def B32ToAsciiChar (ch : Nat) : Nat :=
  (if ch < 26 then ch + 65 else ch + (50 - 26)) % 256

/-- `B32ToAscii` rewrites every byte of the buffer in place. -/
def B32ToAscii (l : List Nat) : List Nat := l.map B32ToAsciiChar

/-- `toupper` from ctype.h on byte values in the C locale. -/
def toupperByte (ch : Nat) : Nat := if 97 ≤ ch ∧ ch ≤ 122 then ch - 32 else ch

/-- Per-byte body of `void AsciiToB32(byte *out, const byte *in, int length)`:
`byte ch = *in++; int lch = toupper(ch); if (lch >= 'A') lch -= 'A'; else lch += 26 - '2'; *out++ = (byte)lch;`.
The else branch adds `26 - '2' = -24`; the cast to byte wraps mod 256. -/
def AsciiToB32Char (ch : Nat) : Nat :=
  if 65 ≤ toupperByte ch then toupperByte ch - 65
  else (toupperByte ch + 26 + 256 - 50) % 256

/-- `AsciiToB32(byte *in, int length)` forwards to the two-buffer variant with
`out = in`; per byte it applies `AsciiToB32Char`. -/
def AsciiToB32 (l : List Nat) : List Nat := l.map AsciiToB32Char

/-- Decode table `d` of `B64StandardDecode`, 123 entries for indices 0 to 122.
64 = WHITESPACE, 65 = EQUALS, 66 = INVALID. -/
def dTable : List Nat :=
  [66, 66, 66, 66, 66, 66, 66, 66, 66, 64,
   66, 66, 66, 66, 66, 66, 66, 66, 66, 66,
   66, 66, 66, 66, 66, 66, 66, 66, 66, 66,
   66, 66, 66, 66, 66, 66, 66, 66, 66, 66,
   66, 66, 66, 62, 66, 66, 66, 63, 52, 53,
   54, 55, 56, 57, 58, 59, 60, 61, 66, 66,
   66, 65, 66, 66, 66, 0, 1, 2, 3, 4,
   5, 6, 7, 8, 9, 10, 11, 12, 13, 14,
   15, 16, 17, 18, 19, 20, 21, 22, 23, 24,
   25, 66, 66, 66, 66, 66, 66, 26, 27, 28,
   29, 30, 31, 32, 33, 34, 35, 36, 37, 38,
   39, 40, 41, 42, 43, 44, 45, 46, 47, 48,
   49, 50, 51]

/-- Main loop of `bool B64StandardDecode(byte *out, const byte *in, int inLen)`.
Per byte: `if (v > 'z') return false; byte c = d[v];` then switch on
WHITESPACE (skip), INVALID (return false), EQUALS (`in = end`, i.e. stop and
fall through to the tail with success), default
(`buf = buf << 6 | c; if (buf & 0x1000000) { *out++ = buf >> 16; *out++ = buf >> 8; *out++ = buf; buf = 1; }`).
Returns (bytes written, final buf, success). -/
def b64StandardDecodeLoop : List Nat → Nat → List Nat × Nat × Bool
  | [], buf => ([], buf, true)
  | v :: rest, buf =>
    if 122 < v then ([], buf, false)
    else
      let c := dTable.getD v 66
      if c = 64 then b64StandardDecodeLoop rest buf
      else if c = 66 then ([], buf, false)
      else if c = 65 then ([], buf, true)
      else
        let buf2 := (buf <<< 6) ||| c
        if buf2 &&& 16777216 ≠ 0 then
          let r := b64StandardDecodeLoop rest 1
          ((buf2 >>> 16) % 256 :: (buf2 >>> 8) % 256 :: buf2 % 256 :: r.1, r.2.1, r.2.2)
        else b64StandardDecodeLoop rest buf2

/-- `B64StandardDecode` runs the loop from `buf = 1` and, on success, flushes
the remaining 12 or 6 payload bits:
`if (buf & 0x40000) { *out++ = buf >> 10; *out++ = buf >> 2; } else if (buf & 0x1000) { *out++ = buf >> 4; } return true;`.
On failure the C function returns false from inside the loop (no tail writes). -/
def B64StandardDecode (input : List Nat) : List Nat × Bool :=
  let r := b64StandardDecodeLoop input 1
  if r.2.2 then
    if r.2.1 &&& 262144 ≠ 0 then
      (r.1 ++ [(r.2.1 >>> 10) % 256, (r.2.1 >>> 2) % 256], true)
    else if r.2.1 &&& 4096 ≠ 0 then (r.1 ++ [(r.2.1 >>> 4) % 256], true)
    else (r.1, true)
  else (r.1, false)

/-- Specification-side: a character of the standard base-64 alphabet
(A-Z, a-z, 0-9, plus, slash). -/
def isStdB64Char (v : Nat) : Prop :=
  (65 ≤ v ∧ v ≤ 90) ∨ (97 ≤ v ∧ v ≤ 122) ∨ (48 ≤ v ∧ v ≤ 57) ∨ v = 43 ∨ v = 47

instance (v : Nat) : Decidable (isStdB64Char v) := by
  unfold isStdB64Char
  infer_instance

/-- Specification-side: an ASCII whitespace byte in the usual sense
(space, tab, line feed, carriage return). -/
def wsByte (v : Nat) : Prop := v = 32 ∨ v = 9 ∨ v = 10 ∨ v = 13

instance (v : Nat) : Decidable (wsByte v) := by
  unfold wsByte
  infer_instance

/-- `int NullNameIO::maxEncodedNameLen(int plaintextNameLen) const`
(the class name `NullNameIO` is shortened to the `null` prefix here):
`return plaintextNameLen;`. -/
def nullMaxEncodedNameLen (plaintextNameLen : Nat) : Nat := plaintextNameLen

/-- `int NullNameIO::maxDecodedNameLen(int encodedNameLen) const`:
`return encodedNameLen;`. -/
def nullMaxDecodedNameLen (encodedNameLen : Nat) : Nat := encodedNameLen

/-- `int NullNameIO::encodeName(const char *plaintextName, int length, uint64_t *iv, char *encodedName) const`:
`memcpy(encodedName, plaintextName, length); return length;`.  The name buffer
with its length is a list; the 64-bit IV slot `*iv` is passed through
untouched.  Result: (bytes written, return value, final IV). -/
def nullEncodeName (plaintextName : List Nat) (iv : Nat) : List Nat × Nat × Nat :=
  (plaintextName, plaintextName.length, iv)

/-- `int NullNameIO::decodeName(const char *encodedName, int length, uint64_t *iv, char *plaintextName) const`:
`memcpy(plaintextName, encodedName, length); return length;`. -/
def nullDecodeName (encodedName : List Nat) (iv : Nat) : List Nat × Nat × Nat :=
  (encodedName, encodedName.length, iv)

/- ---------------------------------------------------------------------
   Bit-stream algebra used to characterise the codec functions.
   --------------------------------------------------------------------- -/

theorem mask_eq (b : Nat) : (1 <<< b) - 1 = 2 ^ b - 1 := by
  simp [Nat.shiftLeft_eq]

theorem and_mask (x b : Nat) : x &&& ((1 <<< b) - 1) = x % 2 ^ b := by
  rw [mask_eq]
  exact Nat.and_pow_two_sub_one_eq_mod x b

theorem or_shiftRight (x y k : Nat) : (x ||| y) >>> k = (x >>> k) ||| (y >>> k) := by
  apply Nat.eq_of_testBit_eq
  intro i
  simp [Nat.testBit_shiftRight]

theorem or_shiftLeft (x y k : Nat) : (x ||| y) <<< k = (x <<< k) ||| (y <<< k) := by
  apply Nat.eq_of_testBit_eq
  intro i
  simp [Nat.testBit_shiftLeft, Bool.and_or_distrib_left]

theorem or_mod_pow (x y k : Nat) : (x ||| y) % 2 ^ k = (x % 2 ^ k) ||| (y % 2 ^ k) := by
  rw [← Nat.and_pow_two_sub_one_eq_mod, ← Nat.and_pow_two_sub_one_eq_mod,
    ← Nat.and_pow_two_sub_one_eq_mod]
  exact Nat.and_distrib_right x y (2 ^ k - 1)

theorem or_div_pow (x y k : Nat) : (x ||| y) / 2 ^ k = (x / 2 ^ k) ||| (y / 2 ^ k) := by
  rw [← Nat.shiftRight_eq_div_pow, ← Nat.shiftRight_eq_div_pow, ← Nat.shiftRight_eq_div_pow]
  exact or_shiftRight x y k

theorem shiftLeft_mod_pow (y s k : Nat) (h : k ≤ s) : (y <<< s) % 2 ^ k = 0 := by
  rw [Nat.shiftLeft_eq]
  have hs : s = (s - k) + k := by omega
  rw [hs, pow_add, ← Nat.mul_assoc]
  exact Nat.mul_mod_left _ _

theorem shiftLeft_div_pow (y s k : Nat) (h : k ≤ s) : (y <<< s) / 2 ^ k = y <<< (s - k) := by
  rw [Nat.shiftLeft_eq, Nat.shiftLeft_eq]
  have hs : s = (s - k) + k := by omega
  rw [hs, pow_add, ← Nat.mul_assoc, Nat.mul_div_cancel _ (Nat.two_pow_pos k)]
  rw [Nat.add_sub_cancel]

theorem or_shiftLeft_eq_add (x y b : Nat) (hx : x < 2 ^ b) :
    x ||| (y <<< b) = y * 2 ^ b + x := by
  rw [Nat.shiftLeft_eq, Nat.or_comm, Nat.mul_comm y (2 ^ b)]
  exact (Nat.mul_add_lt_is_or hx y).symm

theorem bitChunks_length (b S k : Nat) : (bitChunks b S k).length = k := by
  induction k generalizing S with
  | zero => rfl
  | succ k ih => simp [bitChunks, ih]

theorem bitChunks_lt (b S k : Nat) (hb : 0 < b) : ∀ y ∈ bitChunks b S k, y < 2 ^ b := by
  induction k generalizing S with
  | zero => simp [bitChunks]
  | succ k ih =>
    intro y hy
    rcases List.mem_cons.mp hy with h | h
    · subst h; exact Nat.mod_lt _ (Nat.two_pow_pos b)
    · exact ih _ y h

theorem bitChunks_append (b S j k : Nat) :
    bitChunks b S (j + k) = bitChunks b S j ++ bitChunks b (S / 2 ^ (b * j)) k := by
  induction j generalizing S with
  | zero => simp [bitChunks]
  | succ j ih =>
    have hj : j + 1 + k = (j + k) + 1 := by omega
    rw [hj]
    show (S % 2 ^ b) :: bitChunks b (S / 2 ^ b) (j + k) = _
    rw [ih]
    have hd : S / 2 ^ b / 2 ^ (b * j) = S / 2 ^ (b * (j + 1)) := by
      rw [Nat.div_div_eq_div_mul, ← pow_add]
      ring_nf
    rw [hd]
    rfl

theorem bitChunks_succ_back (b S k : Nat) :
    bitChunks b S (k + 1) = bitChunks b S k ++ [S / 2 ^ (b * k) % 2 ^ b] := by
  rw [bitChunks_append b S k 1]
  rfl

theorem bitChunks_take (b S k j : Nat) :
    (bitChunks b S k).take j = bitChunks b S (min j k) := by
  induction k generalizing S j with
  | zero => simp [bitChunks]
  | succ k ih =>
    cases j with
    | zero => simp [bitChunks]
    | succ j =>
      show (S % 2 ^ b) :: (bitChunks b (S / 2 ^ b) k).take j = _
      rw [ih]
      have : min (j + 1) (k + 1) = min j k + 1 := by omega
      rw [this]
      rfl

theorem bitChunks_high (b x y s k : Nat) (h : b * k ≤ s) :
    bitChunks b (x ||| (y <<< s)) k = bitChunks b x k := by
  induction k generalizing x s with
  | zero => rfl
  | succ k ih =>
    have hbs : b ≤ s := le_trans (by nlinarith) h
    show ((x ||| (y <<< s)) % 2 ^ b) :: bitChunks b ((x ||| (y <<< s)) / 2 ^ b) k = _
    rw [or_mod_pow, shiftLeft_mod_pow y s b hbs, Nat.or_zero,
      or_div_pow, shiftLeft_div_pow y s b hbs, ih (x / 2 ^ b) (s - b) (by
        have hms : b * (k + 1) = b * k + b := by ring
        omega)]
    rfl

theorem orStream_append (a : Nat) (l1 l2 : List Nat) :
    orStream a (l1 ++ l2) = orStream a l1 ||| (orStream a l2 <<< (a * l1.length)) := by
  induction l1 with
  | nil => simp [orStream]
  | cons v rest ih =>
    show v ||| (orStream a (rest ++ l2) <<< a) = _
    rw [ih, or_shiftLeft, ← Nat.shiftLeft_add, ← Nat.or_assoc]
    have hleft : v ||| orStream a rest <<< a = orStream a (v :: rest) := rfl
    have hexp : a * rest.length + a = a * (v :: rest).length := by
      rw [List.length_cons]; ring
    rw [hleft, hexp]

theorem orStream_lt (a : Nat) (l : List Nat) (h : ∀ v ∈ l, v < 2 ^ a) :
    orStream a l < 2 ^ (a * l.length) := by
  induction l with
  | nil => simp [orStream]
  | cons v rest ih =>
    have hlt := ih (fun v hv => h v (List.mem_cons_of_mem _ hv))
    have hex : a * (v :: rest).length = a * rest.length + a := by
      rw [List.length_cons]; ring
    have h1 : v < 2 ^ (a * (v :: rest).length) := by
      apply lt_of_lt_of_le (h v (List.mem_cons_self _ _))
      apply Nat.pow_le_pow_right (by norm_num)
      rw [hex]
      omega
    have h2 : orStream a rest <<< a < 2 ^ (a * (v :: rest).length) := by
      rw [Nat.shiftLeft_eq, hex, pow_add]
      exact mul_lt_mul_of_pos_right hlt (Nat.two_pow_pos a)
    exact Nat.or_lt_two_pow h1 h2

theorem bitChunks_orStream (a : Nat) (l : List Nat) (h : ∀ v ∈ l, v < 2 ^ a) :
    bitChunks a (orStream a l) l.length = l := by
  induction l with
  | nil => rfl
  | cons v rest ih =>
    have hv : v < 2 ^ a := h v (List.mem_cons_self _ _)
    have hor : orStream a (v :: rest) = orStream a rest * 2 ^ a + v :=
      or_shiftLeft_eq_add v (orStream a rest) a hv
    show (orStream a (v :: rest) % 2 ^ a) :: bitChunks a (orStream a (v :: rest) / 2 ^ a)
        rest.length = v :: rest
    rw [hor, Nat.mul_comm (orStream a rest) (2 ^ a), Nat.mul_add_mod, Nat.mod_eq_of_lt hv,
      Nat.mul_add_div (Nat.two_pow_pos a),
      Nat.div_eq_of_lt hv, Nat.add_zero]
    rw [ih (fun v hv => h v (List.mem_cons_of_mem _ hv))]

theorem orStream_bitChunks (b S k : Nat) :
    orStream b (bitChunks b S k) = S % 2 ^ (b * k) := by
  induction k generalizing S with
  | zero => simp [bitChunks, orStream, Nat.mod_one]
  | succ k ih =>
    show (S % 2 ^ b) ||| (orStream b (bitChunks b (S / 2 ^ b) k) <<< b) = _
    rw [ih, or_shiftLeft_eq_add _ _ _ (Nat.mod_lt _ (Nat.two_pow_pos b))]
    rw [Nat.mul_succ, Nat.add_comm (b * k) b, pow_add, Nat.mod_mul]
    ring

theorem ceilDiv_eq (x b : Nat) (hb : 0 < b) :
    (x + b - 1) / b = x / b + (if x % b = 0 then 0 else 1) := by
  have hdm := Nat.div_add_mod x b
  have hmlt : x % b < b := Nat.mod_lt _ hb
  by_cases hr : x % b = 0
  · rw [if_pos hr]
    have hx : x + b - 1 = b * (x / b) + (b - 1) := by omega
    rw [hx, Nat.mul_add_div hb, Nat.div_eq_of_lt (show b - 1 < b by omega), Nat.add_zero]
  · rw [if_neg hr]
    have hx : x + b - 1 = b * (x / b + 1) + (x % b - 1) := by
      have : b * (x / b + 1) = b * (x / b) + b := by ring
      omega
    rw [hx, Nat.mul_add_div hb, Nat.div_eq_of_lt (show x % b - 1 < b by omega), Nat.add_zero]

theorem le_mul_ceilDiv (x b : Nat) (hb : 0 < b) : x ≤ b * ((x + b - 1) / b) := by
  have hdm := Nat.div_add_mod x b
  have hmlt : x % b < b := Nat.mod_lt _ hb
  rw [ceilDiv_eq x b hb]
  by_cases hr : x % b = 0
  · rw [if_pos hr, Nat.add_zero]
    omega
  · rw [if_neg hr]
    have hsp : b * (x / b + 1) = b * (x / b) + b := by ring
    omega

theorem drain_spec (b : Nat) (hb : 0 < b) :
    ∀ workBits work, drain b work workBits =
      (bitChunks b work (workBits / b), work / 2 ^ (b * (workBits / b)), workBits % b) := by
  intro workBits
  induction workBits using Nat.strong_induction_on with
  | _ workBits ih =>
    intro work
    rw [drain]
    by_cases h : b ≤ workBits
    · rw [dif_pos ⟨hb, h⟩]
      have hlt : workBits - b < workBits := by omega
      rw [ih _ hlt]
      have hdiv : workBits / b = (workBits - b) / b + 1 := Nat.div_eq_sub_div hb h
      have hmod : workBits % b = (workBits - b) % b := Nat.mod_eq_sub_mod h
      rw [hdiv, hmod]
      simp only [Prod.mk.injEq]
      refine ⟨?_, ?_, trivial⟩
      · rw [and_mask, Nat.shiftRight_eq_div_pow]
        rfl
      · rw [Nat.shiftRight_eq_div_pow, Nat.div_div_eq_div_mul, ← pow_add]
        congr 2
        ring
    · rw [dif_neg (by omega)]
      have h0 : workBits / b = 0 := Nat.div_eq_of_lt (by omega)
      have hm : workBits % b = workBits := Nat.mod_eq_of_lt (by omega)
      rw [h0, hm]
      simp [bitChunks]

theorem changeBase2Loop_spec (a b : Nat) (hb : 0 < b) :
    ∀ (src : List Nat) (work workBits : Nat), workBits < b →
      changeBase2Loop a b src work workBits =
        (bitChunks b (work ||| (orStream a src <<< workBits))
           ((workBits + src.length * a) / b),
         (work ||| (orStream a src <<< workBits)) /
           2 ^ (b * ((workBits + src.length * a) / b)),
         (workBits + src.length * a) % b) := by
  intro src
  induction src with
  | nil =>
    intro work wb hwb
    simp [changeBase2Loop, orStream, Nat.zero_shiftLeft, Nat.or_zero,
      Nat.div_eq_of_lt hwb, Nat.mod_eq_of_lt hwb, bitChunks, Nat.div_one]
  | cons v rest ih =>
    intro work wb hwb
    have hbody : changeBase2Loop a b (v :: rest) work wb =
        (let d := drain b (work ||| (v <<< wb)) (wb + a)
         let r := changeBase2Loop a b rest d.2.1 d.2.2
         (d.1 ++ r.1, r.2.1, r.2.2)) := rfl
    rw [hbody]
    simp only
    rw [drain_spec b hb (wb + a) (work ||| (v <<< wb))]
    simp only
    rw [ih _ _ (Nat.mod_lt _ hb)]
    -- abbreviations for the bit-stream bookkeeping
    have hW : work ||| (orStream a (v :: rest) <<< wb) =
        (work ||| (v <<< wb)) ||| (orStream a rest <<< (wb + a)) := by
      have h1 : orStream a (v :: rest) = v ||| (orStream a rest <<< a) := rfl
      rw [h1, or_shiftLeft, ← Nat.shiftLeft_add, ← Nat.or_assoc, Nat.add_comm a wb]
    have hk1 : b * ((wb + a) / b) ≤ wb + a := by
      have := Nat.div_mul_le_self (wb + a) b
      calc b * ((wb + a) / b) = (wb + a) / b * b := Nat.mul_comm _ _
        _ ≤ wb + a := this
    have hT1 : wb + a - b * ((wb + a) / b) = (wb + a) % b := by
      have := Nat.div_add_mod (wb + a) b
      omega
    have hW2 : (work ||| (orStream a (v :: rest) <<< wb)) / 2 ^ (b * ((wb + a) / b)) =
        ((work ||| (v <<< wb)) / 2 ^ (b * ((wb + a) / b))) |||
          (orStream a rest <<< ((wb + a) % b)) := by
      rw [hW, or_div_pow, shiftLeft_div_pow _ _ _ hk1, hT1]
    have hTsplit : wb + (v :: rest).length * a =
        b * ((wb + a) / b) + ((wb + a) % b + rest.length * a) := by
      have h1 := Nat.div_add_mod (wb + a) b
      rw [List.length_cons]
      have h2 : (rest.length + 1) * a = a + rest.length * a := by ring
      omega
    have hTd : (wb + (v :: rest).length * a) / b =
        (wb + a) / b + ((wb + a) % b + rest.length * a) / b := by
      rw [hTsplit, Nat.mul_add_div hb]
    have hTm : (wb + (v :: rest).length * a) % b =
        ((wb + a) % b + rest.length * a) % b := by
      rw [hTsplit, Nat.mul_add_mod]
    simp only [Prod.mk.injEq]
    refine ⟨?_, ?_, hTm.symm⟩
    · rw [hTd, bitChunks_append, ← hW2]
      congr 1
      rw [hW]
      exact (bitChunks_high b _ (orStream a rest) (wb + a) _ hk1).symm
    · rw [← hW2, Nat.div_div_eq_div_mul, ← pow_add, hTd]
      congr 2
      ring

theorem changeBase2_eq (src : List Nat) (a b dstLen : Nat) (hb : 0 < b) :
    changeBase2 src a b dstLen =
      bitChunks b (orStream a src) (src.length * a / b) ++
        (if src.length * a % b ≠ 0 ∧ src.length * a / b < dstLen then
          [orStream a src / 2 ^ (b * (src.length * a / b)) % 2 ^ b] else []) := by
  have hbody : changeBase2 src a b dstLen =
      (let r := changeBase2Loop a b src 0 0
       if r.2.2 ≠ 0 ∧ r.1.length < dstLen then r.1 ++ [r.2.1 &&& ((1 <<< b) - 1)]
       else r.1) := rfl
  rw [hbody]
  simp only
  rw [changeBase2Loop_spec a b hb src 0 0 hb]
  simp only [Nat.zero_or, Nat.shiftLeft_zero, Nat.zero_add, bitChunks_length, and_mask]
  split
  · rfl
  · rw [List.append_nil]

theorem changeBase2_eq_ceil (src : List Nat) (a b dstLen : Nat) (hb : 0 < b)
    (hd : (src.length * a + b - 1) / b ≤ dstLen) :
    changeBase2 src a b dstLen =
      bitChunks b (orStream a src) ((src.length * a + b - 1) / b) := by
  rw [changeBase2_eq src a b dstLen hb, ceilDiv_eq _ b hb]
  rw [ceilDiv_eq _ b hb] at hd
  by_cases hr : src.length * a % b = 0
  · simp [hr]
  · rw [if_neg hr] at hd ⊢
    rw [if_pos ⟨hr, by omega⟩, bitChunks_succ_back]

theorem changeBase2InlineLoop_spec (a b : Nat) :
    ∀ (src : List Nat) (work workBits : Nat), ∃ c, c ≤ src.length ∧
      changeBase2InlineLoop a b src work workBits =
        (src.drop c, work ||| (orStream a (src.take c) <<< workBits), workBits + c * a) ∧
      (∀ j < c, workBits + j * a < b) ∧
      (src.drop c = [] ∨ b ≤ workBits + c * a) := by
  intro src
  induction src with
  | nil =>
    intro work wb
    exact ⟨0, le_refl _, by simp [changeBase2InlineLoop, orStream, Nat.zero_shiftLeft],
      by omega, Or.inl rfl⟩
  | cons v rest ih =>
    intro work wb
    by_cases hwb : wb < b
    · obtain ⟨c, hc, heq, hcond, hdisj⟩ := ih (work ||| (v <<< wb)) (wb + a)
      refine ⟨c + 1, by simpa using Nat.succ_le_succ hc, ?_, ?_, ?_⟩
      · have hstep : changeBase2InlineLoop a b (v :: rest) work wb =
            changeBase2InlineLoop a b rest (work ||| (v <<< wb)) (wb + a) := by
          simp [changeBase2InlineLoop, hwb]
        rw [hstep, heq]
        have htake : (v :: rest).take (c + 1) = v :: rest.take c := rfl
        have hdrop : (v :: rest).drop (c + 1) = rest.drop c := rfl
        have hwork : (work ||| (v <<< wb)) ||| (orStream a (rest.take c) <<< (wb + a)) =
            work ||| (orStream a ((v :: rest).take (c + 1)) <<< wb) := by
          rw [htake]
          have hor : orStream a (v :: rest.take c) =
              v ||| (orStream a (rest.take c) <<< a) := rfl
          rw [hor, or_shiftLeft, ← Nat.shiftLeft_add, ← Nat.or_assoc, Nat.add_comm a wb]
        have hwb2 : (wb + a) + c * a = wb + (c + 1) * a := by ring
        rw [hdrop, hwork, hwb2]
      · intro j hj
        cases j with
        | zero => simpa using hwb
        | succ j =>
          have := hcond j (by omega)
          have hj2 : wb + (j + 1) * a = (wb + a) + j * a := by ring
          omega
      · have hdrop : (v :: rest).drop (c + 1) = rest.drop c := rfl
        rw [hdrop]
        have hwb2 : (wb + a) + c * a = wb + (c + 1) * a := by ring
        rcases hdisj with hd | hd
        · exact Or.inl hd
        · exact Or.inr (by omega)
    · exact ⟨0, Nat.zero_le _, by simp [changeBase2InlineLoop, hwb, orStream,
        Nat.zero_shiftLeft], by omega, Or.inr (by omega)⟩

theorem flagEmits_spec (b : Nat) (hb : 0 < b) :
    ∀ workBits work, flagEmits b work workBits = bitChunks b work ((workBits + b - 1) / b) := by
  intro workBits
  induction workBits using Nat.strong_induction_on with
  | _ workBits ih =>
    intro work
    rw [flagEmits]
    by_cases h : 0 < workBits
    · rw [dif_pos ⟨hb, h⟩, ih (workBits - b) (by omega)]
      have hcount : (workBits + b - 1) / b = (workBits - b + b - 1) / b + 1 := by
        by_cases hwb : b ≤ workBits
        · rw [show workBits + b - 1 = (workBits - b + b - 1) + b by omega,
            Nat.add_div_right _ hb]
        · rw [show workBits - b = 0 by omega]
          rw [show workBits + b - 1 = b * 1 + (workBits - 1) by omega,
            Nat.mul_add_div hb, Nat.div_eq_of_lt (show workBits - 1 < b by omega),
            Nat.zero_add, Nat.div_eq_of_lt (show b - 1 < b by omega)]
      rw [hcount, and_mask, Nat.shiftRight_eq_div_pow]
      rfl
    · rw [dif_neg (by omega)]
      have h0 : workBits = 0 := by omega
      rw [h0, Nat.zero_add, Nat.div_eq_of_lt (show b - 1 < b by omega)]
      rfl

theorem consume_preserves (a : Nat) (src : List Nat) (c work wb : Nat) (hc : c ≤ src.length) :
    (work ||| (orStream a (src.take c) <<< wb)) |||
      (orStream a (src.drop c) <<< (wb + c * a)) =
    work ||| (orStream a src <<< wb) := by
  conv_rhs => rw [← List.take_append_drop c src]
  rw [orStream_append, or_shiftLeft, ← Nat.shiftLeft_add, ← Nat.or_assoc]
  have hlen : (src.take c).length = c := by
    rw [List.length_take]
    omega
  rw [hlen]
  have hexp : a * c + wb = wb + c * a := by ring
  rw [hexp]

theorem measureDec (a b n c wb : Nat) (hb : 0 < b) (hc : c ≤ n) (hble : b ≤ wb + c * a) :
    (a + b) * (n - c) + (wb + c * a - b) < (a + b) * n + wb := by
  have h0 : (n - c) + c = n := Nat.sub_add_cancel hc
  have h1 : (a + b) * n = (a + b) * (n - c) + (c * a + b * c) := by
    calc (a + b) * n = (a + b) * ((n - c) + c) := by rw [h0]
      _ = (a + b) * (n - c) + (c * a + b * c) := by ring
  rw [h1]
  generalize (a + b) * (n - c) = Q
  generalize hP : c * a = P at *
  generalize b * c = R
  omega

theorem termCount (b T : Nat) (hb : 0 < b) :
    (T - b + b - 1) / b + 1 = max 1 ((T + b - 1) / b) := by
  by_cases hT : b < T
  · rw [show T + b - 1 = (T - b + b - 1) + b by omega, Nat.add_div_right _ hb]
    have h1 : b ≤ T - b + b - 1 := by omega
    have h2 : 1 ≤ (T - b + b - 1) / b := (Nat.one_le_div_iff hb).mpr h1
    omega
  · have e1 : (T - b + b - 1) / b = 0 := by
      rw [show T - b + b - 1 = b - 1 by omega]
      exact Nat.div_eq_of_lt (by omega)
    by_cases hT0 : T = 0
    · have e2 : (T + b - 1) / b = 0 := by
        rw [show T + b - 1 = b - 1 by omega]
        exact Nat.div_eq_of_lt (by omega)
      omega
    · have e2 : (T + b - 1) / b = 1 := by
        rw [show T + b - 1 = b * 1 + (T - 1) by omega, Nat.mul_add_div hb,
          Nat.div_eq_of_lt (show T - 1 < b by omega)]
      omega

theorem ceilMax_succ (b T : Nat) (hb : 0 < b) (hT : b + 1 ≤ T) :
    max 1 ((T + b - 1) / b) = max 1 ((T - b + b - 1) / b) + 1 := by
  have h1 : T - b + b - 1 = T - 1 := by omega
  have h2 : T + b - 1 = (T - 1) + b := by omega
  rw [h1, h2, Nat.add_div_right _ hb]
  have h3 : 1 ≤ (T - 1) / b := (Nat.one_le_div_iff hb).mpr (by omega)
  omega

theorem changeBase2InlineRec_spec (a b : Nat) (ha : 0 < a) (hb : 0 < b) :
    ∀ (N : Nat) (flag : Bool) (src : List Nat) (work workBits : Nat),
      (a + b) * src.length + workBits ≤ N →
      changeBase2InlineRec a b flag src work workBits =
        bitChunks b (work ||| (orStream a src <<< workBits))
          (if flag then max 1 ((workBits + src.length * a + b - 1) / b)
           else if src = [] then 1
           else (workBits + (src.length - 1) * a) / b + 1) := by
  intro N
  induction N using Nat.strong_induction_on with
  | _ N ih =>
    intro flag src work wb hN
    obtain ⟨c, hc, heq, hcond, hdisj⟩ := changeBase2InlineLoop_spec a b src work wb
    rw [changeBase2InlineRec, dif_pos hb]
    simp only [heq]
    by_cases hsplit : src.drop c = []
    · -- terminal level: the consume loop exhausted the input
      rw [dif_neg (not_not_intro hsplit)]
      have hcn : c = src.length := by
        have h0 := congrArg List.length hsplit
        rw [List.length_drop] at h0
        simp only [List.length_nil] at h0
        omega
      have htake : src.take c = src := by rw [hcn]; exact List.take_length src
      rw [htake]
      cases flag with
      | true =>
        rw [if_pos rfl, if_pos rfl,
          flagEmits_spec b hb (wb + c * a - b) _, and_mask, Nat.shiftRight_eq_div_pow]
        have hcount := termCount b (wb + c * a) hb
        rw [show wb + src.length * a = wb + c * a by rw [hcn]]
        rw [← hcount]
        rfl
      | false =>
        rw [if_neg Bool.false_ne_true, if_neg Bool.false_ne_true]
        by_cases hnil : src = []
        · rw [if_pos hnil, and_mask]
          rfl
        · rw [if_neg hnil]
          have hn1 : 1 ≤ src.length := by
            cases src with
            | nil => exact absurd rfl hnil
            | cons x xs => simp
          have hlast := hcond (src.length - 1) (by omega)
          rw [Nat.div_eq_of_lt (by omega), and_mask]
          rfl
    · -- recursion: input remains after the consume loop
      rw [dif_pos hsplit]
      have hlen : (src.drop c).length = src.length - c := List.length_drop c src
      have hclt : c < src.length := by
        rcases Nat.lt_or_ge c src.length with h | h
        · exact h
        · exact absurd (List.drop_eq_nil_of_le h) hsplit
      have hble : b ≤ wb + c * a := by
        rcases hdisj with h | h
        · exact absurd h hsplit
        · exact h
      have hne : src ≠ [] := by
        cases src with
        | nil => simp at hclt
        | cons x xs => simp
      have hdec : (a + b) * (src.drop c).length + (wb + c * a - b) < N := by
        rw [hlen]
        calc (a + b) * (src.length - c) + (wb + c * a - b)
            < (a + b) * src.length + wb := measureDec a b src.length c wb hb hc hble
          _ ≤ N := hN
      rw [ih _ hdec flag (src.drop c) _ _ (le_refl _)]
      -- the state after the consume loop carries the same bit stream
      have hpres := consume_preserves a src c work wb hc
      have hhead : (work ||| (orStream a (src.take c) <<< wb)) &&& ((1 <<< b) - 1) =
          (work ||| (orStream a src <<< wb)) % 2 ^ b := by
        rw [and_mask, ← hpres,
          or_mod_pow (work ||| (orStream a (src.take c) <<< wb)) _ b,
          shiftLeft_mod_pow _ _ _ hble, Nat.or_zero]
      have htail : ((work ||| (orStream a (src.take c) <<< wb)) >>> b) |||
          (orStream a (src.drop c) <<< (wb + c * a - b)) =
          (work ||| (orStream a src <<< wb)) / 2 ^ b := by
        rw [← hpres,
          or_div_pow (work ||| (orStream a (src.take c) <<< wb)) _ b,
          shiftLeft_div_pow _ _ _ hble, Nat.shiftRight_eq_div_pow]
      rw [hhead, htail]
      -- count bookkeeping
      have hsum : c * a + (src.length - c) * a = src.length * a := by
        calc c * a + (src.length - c) * a = (c + (src.length - c)) * a := by ring
          _ = src.length * a := by rw [Nat.add_sub_cancel' hc]
      have hK : (if flag then max 1 ((wb + src.length * a + b - 1) / b)
           else if src = [] then 1
           else (wb + (src.length - 1) * a) / b + 1) =
          (if flag then max 1 ((wb + c * a - b + (src.drop c).length * a + b - 1) / b)
           else if src.drop c = [] then 1
           else (wb + c * a - b + ((src.drop c).length - 1) * a) / b + 1) + 1 := by
        rw [hlen]
        cases flag with
        | true =>
          rw [if_pos rfl, if_pos rfl]
          have hT2 : wb + c * a - b + (src.length - c) * a =
              wb + src.length * a - b := by omega
          rw [hT2]
          exact ceilMax_succ b (wb + src.length * a) hb (by
            have hga : 1 ≤ (src.length - c) * a := by
              have : 1 ≤ src.length - c := by omega
              calc 1 = 1 * 1 := rfl
                _ ≤ (src.length - c) * a := Nat.mul_le_mul this ha
            omega)
        | false =>
          rw [if_neg Bool.false_ne_true, if_neg Bool.false_ne_true, if_neg hne,
            if_neg hsplit]
          have hd1 : 1 ≤ src.length - c := by omega
          have hx2 : wb + c * a - b + (src.length - c - 1) * a =
              wb + (src.length - 1) * a - b := by
            have e1 : c * a + (src.length - c - 1) * a = (src.length - 1) * a := by
              calc c * a + (src.length - c - 1) * a = (c + (src.length - c - 1)) * a := by
                    ring
                _ = (src.length - 1) * a := by
                    congr 1
                    omega
            omega
          rw [hx2]
          have hxb : b ≤ wb + (src.length - 1) * a := by
            have e1 : c * a ≤ (src.length - 1) * a := Nat.mul_le_mul_right a (by omega)
            omega
          rw [Nat.div_eq_sub_div hb hxb]
      rw [hK]
      rfl

theorem changeBase2Inline_true_eq (src : List Nat) (a b : Nat) (ha : 0 < a) (hb : 0 < b) :
    changeBase2Inline src a b true =
      bitChunks b (orStream a src) (max 1 ((src.length * a + b - 1) / b)) := by
  unfold changeBase2Inline
  rw [changeBase2InlineRec_spec a b ha hb ((a + b) * src.length) true src 0 0 (by omega)]
  rw [if_pos rfl, Nat.zero_or, Nat.shiftLeft_zero, Nat.zero_add]

theorem changeBase2Inline_false_eq (src : List Nat) (a b : Nat) (ha : 0 < a) (hb : 0 < b)
    (hne : src ≠ []) :
    changeBase2Inline src a b false =
      bitChunks b (orStream a src) ((src.length - 1) * a / b + 1) := by
  unfold changeBase2Inline
  rw [changeBase2InlineRec_spec a b ha hb ((a + b) * src.length) false src 0 0 (by omega)]
  rw [if_neg Bool.false_ne_true, if_neg hne, Nat.zero_or, Nat.shiftLeft_zero, Nat.zero_add]

theorem changeBase2Inline_nil_eq (a b : Nat) (flag : Bool) (hb : 0 < b) :
    changeBase2Inline [] a b flag = [0] := by
  unfold changeBase2Inline
  rw [changeBase2InlineRec, dif_pos hb]
  have hloop : changeBase2InlineLoop a b [] 0 0 = ([], 0, 0) := rfl
  simp only [hloop]
  rw [dif_neg (by simp)]
  have hfe : flagEmits b 0 0 = [] := by
    rw [flagEmits, dif_neg (by omega)]
  cases flag with
  | true => simp [hfe, Nat.zero_and]
  | false => simp [Nat.zero_and]

/-- Claim C6: the null name codec is the identity: `encodeName` copies the
plaintext unchanged and returns its length, `decodeName` recovers it, and the
max-length bounds are the identity. -/
theorem claim6_null_identity (name : List Nat) (iv : Nat) (n : Nat) :
    nullEncodeName name iv = (name, name.length, iv) ∧
    nullDecodeName (nullEncodeName name iv).1 iv = (name, name.length, iv) ∧
    nullMaxEncodedNameLen n = n ∧ nullMaxDecodedNameLen n = n :=
  ⟨rfl, rfl, rfl, rfl⟩

/-- Claim C7: the null name codec leaves the 64-bit IV slot unchanged, and its
output bytes and return value do not depend on the IV value. -/
theorem claim7_null_iv_frame (name : List Nat) (iv iv2 : Nat) :
    (nullEncodeName name iv).2.2 = iv ∧ (nullDecodeName name iv).2.2 = iv ∧
    (nullEncodeName name iv).1 = (nullEncodeName name iv2).1 ∧
    (nullEncodeName name iv).2.1 = (nullEncodeName name iv2).2.1 ∧
    (nullDecodeName name iv).1 = (nullDecodeName name iv2).1 ∧
    (nullDecodeName name iv).2.1 = (nullDecodeName name iv2).2.1 :=
  ⟨rfl, rfl, rfl, rfl, rfl, rfl⟩

/-- Claim C10: on an empty input the public `changeBase2Inline` writes exactly
one output byte, the value 0, regardless of the source width and of the
`outputPartialLastByte` flag (widths are in the 1..8 range of the spec; the
destination width must be positive since the C loops diverge at 0). -/
theorem claim10_inline_nil (a b : Nat) (flag : Bool) (hb1 : 1 ≤ b) :
    changeBase2Inline [] a b flag = [0] :=
  changeBase2Inline_nil_eq a b flag hb1

theorem claim10_witness : 1 ≤ 5 ∧ changeBase2Inline [] 3 5 true = [0] :=
  ⟨by decide, claim10_inline_nil 3 5 true (by decide)⟩

/-- Claim C4: `B64ToAscii` maps each 6-bit symbol v to the character at index
v of `,-0123456789ABCDEFGHIJKLMNOPQRSTUVWXYZabcdefghijklmnopqrstuvwxyz` (never
producing / = 47 or . = 46), `AsciiToB64` inverts it, and the composition is
the identity on every buffer of 6-bit symbols. -/
theorem claim4_b64_alphabet :
    (∀ v, v < 64 →
      (B64ToAsciiChar v = b64Alphabet.getD v 0 ∧
       B64ToAsciiChar v ≠ 46 ∧ B64ToAsciiChar v ≠ 47 ∧
       AsciiToB64Char (B64ToAsciiChar v) = v)) ∧
    ∀ l, (∀ v ∈ l, v < 64) → AsciiToB64 (B64ToAscii l) = l := by
  constructor
  · decide
  · have hdec : ∀ v, v < 64 → AsciiToB64Char (B64ToAsciiChar v) = v := by decide
    intro l hl
    unfold AsciiToB64 B64ToAscii
    rw [List.map_map]
    have hpt : ∀ v ∈ l, (AsciiToB64Char ∘ B64ToAsciiChar) v = id v := fun v hv =>
      hdec v (hl v hv)
    rw [List.map_congr_left hpt, List.map_id]

theorem claim4_witness :
    B64ToAsciiChar 37 = b64Alphabet.getD 37 0 ∧
    AsciiToB64Char (B64ToAsciiChar 37) = 37 ∧
    AsciiToB64 (B64ToAscii [0, 11, 12, 37, 38, 63]) = [0, 11, 12, 37, 38, 63] :=
  ⟨(claim4_b64_alphabet.1 37 (by decide)).1,
   (claim4_b64_alphabet.1 37 (by decide)).2.2.2,
   claim4_b64_alphabet.2 [0, 11, 12, 37, 38, 63] (by decide)⟩

/-- Claim C5: `B32ToAscii` maps v in 0..25 to letter A+v and v in 26..31 to
digit 2+(v-26); `AsciiToB32` maps the character back, and decoding is
case-insensitive (lower- and upper-case letters give the same symbol). -/
theorem claim5_b32_alphabet :
    (∀ v, v < 32 →
      ((v < 26 → B32ToAsciiChar v = 65 + v) ∧
       (26 ≤ v → B32ToAsciiChar v = 50 + (v - 26)) ∧
       AsciiToB32Char (B32ToAsciiChar v) = v)) ∧
    ∀ v, v < 26 → AsciiToB32Char (97 + v) = AsciiToB32Char (65 + v) := by
  constructor
  · decide
  · decide

theorem claim5_witness :
    B32ToAsciiChar 4 = 65 + 4 ∧ B32ToAsciiChar 30 = 50 + (30 - 26) ∧
    AsciiToB32Char (B32ToAsciiChar 30) = 30 ∧
    AsciiToB32Char (97 + 4) = AsciiToB32Char (65 + 4) :=
  ⟨(claim5_b32_alphabet.1 4 (by decide)).1 (by decide),
   (claim5_b32_alphabet.1 30 (by decide)).2.1 (by decide),
   (claim5_b32_alphabet.1 30 (by decide)).2.2,
   claim5_b32_alphabet.2 4 (by decide)⟩

/-- Claim C2 counterexample: with `outputPartialLastByte` clear the in-place
variant does NOT leave "the `changeBase2` output minus any trailing partial
symbol".  For src = [3], a = 2, b = 6 the only output symbol of `changeBase2`
is a trailing partial symbol (1·2 mod 6 = 2 bits), yet the in-place variant
with the flag clear still emits it.  Moreover on the empty input the in-place
variant emits a zero byte where `changeBase2` emits nothing. -/
theorem claim2_counterexample :
    changeBase2Inline [3] 2 6 false = [3] ∧
    changeBase2 [3] 2 6 1 = [3] ∧
    1 * 2 % 6 ≠ 0 ∧
    changeBase2Inline [3] 2 6 false ≠ (changeBase2 [3] 2 6 1).dropLast ∧
    changeBase2Inline [] 2 6 true = [0] ∧
    changeBase2 [] 2 6 64 = [] := by
  have h1 : changeBase2Inline [3] 2 6 false = [3] := by
    rw [changeBase2Inline_false_eq [3] 2 6 (by decide) (by decide) (by decide)]
    decide
  have h2 : changeBase2 [3] 2 6 1 = [3] := by
    rw [changeBase2_eq [3] 2 6 1 (by decide)]
    decide
  have h3 : changeBase2Inline [] 2 6 true = [0] :=
    changeBase2Inline_nil_eq 2 6 true (by decide)
  have h4 : changeBase2 [] 2 6 64 = [] := by
    rw [changeBase2_eq [] 2 6 64 (by decide)]
    decide
  refine ⟨h1, h2, by decide, ?_, h3, h4⟩
  rw [h1, h2]
  decide

/-- Claim C2 amended: for widths a, b in 1..8 and a NONEMPTY byte sequence,
`changeBase2Inline` with `outputPartialLastByte` set leaves exactly the bytes
`changeBase2` writes to a sufficiently large destination; with the flag clear
it leaves exactly the first `(n-1)·a/b + 1` of those bytes — one output symbol
per recursion level — which can still include a trailing partial symbol (and
can be fewer than the full symbols). -/
theorem claim2_amended (src : List Nat) (a b dstLen : Nat)
    (ha1 : 1 ≤ a) (ha8 : a ≤ 8) (hb1 : 1 ≤ b) (hb8 : b ≤ 8) (hne : src ≠ [])
    (hd : (src.length * a + b - 1) / b ≤ dstLen) :
    changeBase2Inline src a b true = changeBase2 src a b dstLen ∧
    changeBase2Inline src a b false =
      (changeBase2 src a b dstLen).take ((src.length - 1) * a / b + 1) := by
  have ha : 0 < a := ha1
  have hb : 0 < b := hb1
  have hn1 : 1 ≤ src.length := List.length_pos.mpr hne
  have hna : 1 ≤ src.length * a := by
    calc 1 = 1 * 1 := rfl
      _ ≤ src.length * a := Nat.mul_le_mul hn1 ha
  constructor
  · rw [changeBase2Inline_true_eq src a b ha hb, changeBase2_eq_ceil src a b dstLen hb hd]
    congr 1
    have h1 : 1 ≤ (src.length * a + b - 1) / b := by
      apply (Nat.one_le_div_iff hb).mpr
      omega
    omega
  · rw [changeBase2Inline_false_eq src a b ha hb hne,
      changeBase2_eq_ceil src a b dstLen hb hd, bitChunks_take]
    congr 1
    have hca : (src.length - 1) * a ≤ src.length * a - 1 := by
      have h1 : (src.length - 1) * a + a = src.length * a := by
        calc (src.length - 1) * a + a = ((src.length - 1) + 1) * a := by ring
          _ = src.length * a := by
            congr 1
            omega
      omega
    have h2 : (src.length * a + b - 1) / b = (src.length * a - 1) / b + 1 := by
      rw [show src.length * a + b - 1 = (src.length * a - 1) + b by omega,
        Nat.add_div_right _ hb]
    have h3 : (src.length - 1) * a / b ≤ (src.length * a - 1) / b :=
      Nat.div_le_div_right hca
    omega

theorem claim2_witness :
    (([3] : List Nat) ≠ [] ∧ (List.length [3] * 2 + 6 - 1) / 6 ≤ 1) ∧
    (changeBase2Inline [3] 2 6 true = changeBase2 [3] 2 6 1 ∧
     changeBase2Inline [3] 2 6 false =
       (changeBase2 [3] 2 6 1).take ((List.length [3] - 1) * 2 / 6 + 1)) :=
  ⟨⟨by decide, by decide⟩,
   claim2_amended [3] 2 6 1 (by decide) (by decide) (by decide) (by decide)
     (by decide) (by decide)⟩

/-- Claim C1: for symbol widths a, b in 1..8 and any byte sequence x of length
n whose bytes each fit in a bits, converting from a-bit to b-bit symbols with
`changeBase2` and back from b to a bits, with destination buffers large enough
for each direction, restores x on the first n bytes. -/
theorem claim1_roundTrip (a b d1 d2 : Nat) (x : List Nat)
    (ha1 : 1 ≤ a) (ha8 : a ≤ 8) (hb1 : 1 ≤ b) (hb8 : b ≤ 8)
    (hx : ∀ v ∈ x, v < 2 ^ a)
    (hd1 : (x.length * a + b - 1) / b ≤ d1)
    (hd2 : (((x.length * a + b - 1) / b) * b + a - 1) / a ≤ d2) :
    (changeBase2 (changeBase2 x a b d1) b a d2).take x.length = x := by
  have ha : 0 < a := ha1
  have hb : 0 < b := hb1
  rw [changeBase2_eq_ceil x a b d1 hb hd1]
  have hlen1 : (bitChunks b (orStream a x) ((x.length * a + b - 1) / b)).length =
      (x.length * a + b - 1) / b := bitChunks_length _ _ _
  rw [changeBase2_eq_ceil _ b a d2 ha (by rw [hlen1]; exact hd2), hlen1,
    orStream_bitChunks]
  have hcm : x.length * a = a * x.length := Nat.mul_comm _ _
  have hceil := le_mul_ceilDiv (x.length * a) b hb
  have hS : orStream a x < 2 ^ (b * ((x.length * a + b - 1) / b)) := by
    calc orStream a x < 2 ^ (a * x.length) := orStream_lt a x hx
      _ ≤ 2 ^ (b * ((x.length * a + b - 1) / b)) :=
        Nat.pow_le_pow_right (by norm_num) (by omega)
  rw [Nat.mod_eq_of_lt hS, bitChunks_take]
  have hnle : x.length ≤ (((x.length * a + b - 1) / b) * b + a - 1) / a := by
    have h1 : x.length ≤ ((x.length * a + b - 1) / b) * b / a := by
      apply (Nat.le_div_iff_mul_le ha).mpr
      have h2 : b * ((x.length * a + b - 1) / b) = ((x.length * a + b - 1) / b) * b :=
        Nat.mul_comm _ _
      omega
    have h3 : ((x.length * a + b - 1) / b) * b / a ≤
        (((x.length * a + b - 1) / b) * b + a - 1) / a :=
      Nat.div_le_div_right (by omega)
    omega
  rw [min_eq_left hnle]
  exact bitChunks_orStream a x hx

theorem claim1_witness :
    (∀ v ∈ [5, 2, 7], v < 2 ^ 3) ∧
    (changeBase2 (changeBase2 [5, 2, 7] 3 5 2) 5 3 4).take (List.length [5, 2, 7]) =
      [5, 2, 7] :=
  ⟨by decide,
   claim1_roundTrip 3 5 2 4 [5, 2, 7] (by decide) (by decide) (by decide) (by decide)
     (by decide) (by decide) (by decide)⟩

/-- Claim C9: `changeBase2` writes exactly ⌊n·a/b⌋ full output symbols — the
successive b-bit chunks of the input bit stream — then one additional symbol
iff the remainder n·a mod b is nonzero and fewer than dstLen symbols have been
written so far; every written byte is below 2^b; and when the input bytes fit
in a bits the extra symbol holds exactly the remaining n·a mod b bits. -/
theorem claim9_shape (src : List Nat) (a b dstLen : Nat) (ha : 0 < a) (hb : 0 < b) :
    (changeBase2 src a b dstLen).length =
        src.length * a / b +
          (if src.length * a % b ≠ 0 ∧ src.length * a / b < dstLen then 1 else 0) ∧
    (changeBase2 src a b dstLen).take (src.length * a / b) =
        bitChunks b (orStream a src) (src.length * a / b) ∧
    (∀ y ∈ changeBase2 src a b dstLen, y < 2 ^ b) ∧
    ((∀ v ∈ src, v < 2 ^ a) → src.length * a % b ≠ 0 → src.length * a / b < dstLen →
      changeBase2 src a b dstLen =
        bitChunks b (orStream a src) (src.length * a / b) ++
          [orStream a src / 2 ^ (b * (src.length * a / b))] ∧
      orStream a src / 2 ^ (b * (src.length * a / b)) < 2 ^ (src.length * a % b)) := by
  rw [changeBase2_eq src a b dstLen hb]
  refine ⟨?_, ?_, ?_, ?_⟩
  · rw [List.length_append, bitChunks_length]
    split
    · rfl
    · rfl
  · have hlen := bitChunks_length b (orStream a src) (src.length * a / b)
    generalize hL : bitChunks b (orStream a src) (src.length * a / b) = L
    rw [hL] at hlen
    rw [← hlen, List.take_left]
  · intro y hy
    rcases List.mem_append.mp hy with h | h
    · exact bitChunks_lt b _ _ hb y h
    · revert h
      split
      · intro h
        have hy2 : y = orStream a src / 2 ^ (b * (src.length * a / b)) % 2 ^ b := by
          simpa using h
        rw [hy2]
        exact Nat.mod_lt _ (Nat.two_pow_pos b)
      · intro h
        simp at h
  · intro hxa hr hlt
    have hq := Nat.div_add_mod (src.length * a) b
    have hSlt : orStream a src < 2 ^ (a * src.length) := orStream_lt a src hxa
    have hbound : orStream a src / 2 ^ (b * (src.length * a / b)) <
        2 ^ (src.length * a % b) := by
      apply (Nat.div_lt_iff_lt_mul (Nat.two_pow_pos _)).mpr
      rw [← pow_add]
      calc orStream a src < 2 ^ (a * src.length) := hSlt
        _ ≤ 2 ^ (src.length * a % b + b * (src.length * a / b)) := by
          apply Nat.pow_le_pow_right (by norm_num)
          have hcm : a * src.length = src.length * a := Nat.mul_comm _ _
          omega
    refine ⟨?_, hbound⟩
    rw [if_pos ⟨hr, hlt⟩,
      Nat.mod_eq_of_lt (lt_of_lt_of_le hbound
        (Nat.pow_le_pow_right (by norm_num) (le_of_lt (Nat.mod_lt _ hb))))]

theorem claim9_witness :
    0 < 3 ∧ 0 < 2 ∧
    (changeBase2 [7] 3 2 2).length =
      List.length [7] * 3 / 2 +
        (if List.length [7] * 3 % 2 ≠ 0 ∧ List.length [7] * 3 / 2 < 2 then 1 else 0) :=
  ⟨by decide, by decide, (claim9_shape [7] 3 2 2 (by decide) (by decide)).1⟩

theorem b64Loop_cons (v : Nat) (rest : List Nat) (buf : Nat) :
    b64StandardDecodeLoop (v :: rest) buf =
      (if 122 < v then ([], buf, false)
       else
         if dTable.getD v 66 = 64 then b64StandardDecodeLoop rest buf
         else if dTable.getD v 66 = 66 then ([], buf, false)
         else if dTable.getD v 66 = 65 then ([], buf, true)
         else
           if ((buf <<< 6) ||| dTable.getD v 66) &&& 16777216 ≠ 0 then
             ((((buf <<< 6) ||| dTable.getD v 66) >>> 16) % 256 ::
               (((buf <<< 6) ||| dTable.getD v 66) >>> 8) % 256 ::
               ((buf <<< 6) ||| dTable.getD v 66) % 256 ::
                 (b64StandardDecodeLoop rest 1).1,
              (b64StandardDecodeLoop rest 1).2.1, (b64StandardDecodeLoop rest 1).2.2)
           else b64StandardDecodeLoop rest ((buf <<< 6) ||| dTable.getD v 66)) := rfl

theorem b64StandardDecodeLoop_ok (l : List Nat) : ∀ buf,
    (b64StandardDecodeLoop l buf).2.2 = true ↔
      ∀ v ∈ l.takeWhile (fun v => v != 61), dTable.getD v 66 ≠ 66 ∧ v ≤ 122 := by
  induction l with
  | nil =>
    intro buf
    simp [b64StandardDecodeLoop]
  | cons v rest ih =>
    intro buf
    by_cases h61 : v = 61
    · subst h61
      have hstep : b64StandardDecodeLoop (61 :: rest) buf = ([], buf, true) := by
        rw [b64Loop_cons, if_neg (by omega : ¬122 < 61), if_neg (by decide), if_neg (by decide),
          if_pos (by decide)]
      rw [hstep]
      simp [List.takeWhile_cons]
    · have hpred : (v != 61) = true := by simpa using h61
      rw [List.takeWhile_cons, if_pos hpred]
      by_cases hz : 122 < v
      · have hstep : b64StandardDecodeLoop (v :: rest) buf = ([], buf, false) := by
          rw [b64Loop_cons, if_pos hz]
        rw [hstep]
        constructor
        · intro h
          simp at h
        · intro h
          exact absurd (h v (List.mem_cons_self _ _)).2 (by omega)
      · have hc65 : dTable.getD v 66 ≠ 65 := by
          have hv123 : v < 123 := by omega
          have key : ∀ w, w < 123 → ¬w = 61 → dTable.getD w 66 ≠ 65 := by decide
          exact key v hv123 h61
        by_cases hc64 : dTable.getD v 66 = 64
        · have hstep : b64StandardDecodeLoop (v :: rest) buf =
              b64StandardDecodeLoop rest buf := by
            rw [b64Loop_cons, if_neg hz, if_pos hc64]
          rw [hstep, ih buf]
          constructor
          · intro h
            intro w hw
            rcases List.mem_cons.mp hw with hv | hv
            · subst hv
              exact ⟨by rw [hc64]; omega, by omega⟩
            · exact h w hv
          · intro h w hw
            exact h w (List.mem_cons_of_mem _ hw)
        · by_cases hc66 : dTable.getD v 66 = 66
          · have hstep : b64StandardDecodeLoop (v :: rest) buf = ([], buf, false) := by
              rw [b64Loop_cons, if_neg hz, if_neg hc64, if_pos hc66]
            rw [hstep]
            constructor
            · intro h
              simp at h
            · intro h
              exact absurd (h v (List.mem_cons_self _ _)).1 (by simpa using hc66)
          · -- ordinary symbol: both buffer branches recurse with success passthrough
            have hok : (b64StandardDecodeLoop (v :: rest) buf).2.2 =
                (if ((buf <<< 6) ||| dTable.getD v 66) &&& 16777216 ≠ 0 then
                  (b64StandardDecodeLoop rest 1).2.2
                 else (b64StandardDecodeLoop rest ((buf <<< 6) ||| dTable.getD v 66)).2.2) := by
              rw [b64Loop_cons, if_neg hz, if_neg hc64, if_neg hc66, if_neg hc65]
              split
              · rfl
              · rfl
            rw [hok]
            have hiff : (if ((buf <<< 6) ||| dTable.getD v 66) &&& 16777216 ≠ 0 then
                  (b64StandardDecodeLoop rest 1).2.2
                 else (b64StandardDecodeLoop rest ((buf <<< 6) ||| dTable.getD v 66)).2.2) =
                true ↔
                ∀ w ∈ rest.takeWhile (fun w => w != 61),
                  dTable.getD w 66 ≠ 66 ∧ w ≤ 122 := by
              split
              · exact ih 1
              · exact ih _
            rw [hiff]
            constructor
            · intro h w hw
              rcases List.mem_cons.mp hw with hv | hv
              · subst hv
                exact ⟨hc66, by omega⟩
              · exact h w hv
            · intro h w hw
              exact h w (List.mem_cons_of_mem _ hw)

theorem b64StandardDecode_ok_char (v : Nat) (h61 : v ≠ 61) :
    (dTable.getD v 66 ≠ 66 ∧ v ≤ 122) ↔ (isStdB64Char v ∨ v = 9) := by
  by_cases hv : v < 123
  · have key : ∀ w, w < 123 → ¬w = 61 →
        ((dTable.getD w 66 ≠ 66 ∧ w ≤ 122) ↔ (isStdB64Char w ∨ w = 9)) := by decide
    exact key v hv h61
  · constructor
    · intro h
      exact absurd h.2 (by omega)
    · intro h
      rcases h with h | h
      · rcases h with ⟨_, h2⟩ | ⟨_, h2⟩ | ⟨_, h2⟩ | h | h <;> omega
      · omega

/-- Claim C3 (amended): `B64StandardDecode` returns true iff every byte
strictly before the first `=` (61) is either a character of the standard
base-64 alphabet or a TAB (9) — the only byte its table marks as whitespace;
in particular it stops consuming at the first `=` and still returns true. -/
theorem claim3_amended (input : List Nat) :
    (B64StandardDecode input).2 = true ↔
      ∀ v ∈ input.takeWhile (fun v => v != 61), isStdB64Char v ∨ v = 9 := by
  have htop : (B64StandardDecode input).2 = (b64StandardDecodeLoop input 1).2.2 := by
    unfold B64StandardDecode
    rcases hres : b64StandardDecodeLoop input 1 with ⟨o, bf, ok⟩
    simp only [hres]
    cases ok
    · rfl
    · rw [if_pos rfl]
      split
      · rfl
      · split
        · rfl
        · rfl
  rw [htop, b64StandardDecodeLoop_ok input 1]
  constructor
  · intro h v hv
    have hne : v ≠ 61 := by
      have := List.mem_takeWhile_imp hv
      simpa using this
    exact (b64StandardDecode_ok_char v hne).mp (h v hv)
  · intro h v hv
    have hne : v ≠ 61 := by
      have := List.mem_takeWhile_imp hv
      simpa using this
    exact (b64StandardDecode_ok_char v hne).mpr (h v hv)

/-- Claim C3 counterexample: the claim as stated (false iff some byte before
the first `=` is neither alphabet nor whitespace nor `=`) fails at the input
consisting of the single space character 32: a space is whitespace, yet the
decoder reports failure, because its table `d` marks only TAB (9) as
WHITESPACE and the space as INVALID. -/
theorem claim3_counterexample :
    wsByte 32 ∧
    ¬(((B64StandardDecode [32]).2 = false) ↔
      ∃ v ∈ [32].takeWhile (fun v => v != 61),
        ¬isStdB64Char v ∧ ¬wsByte v ∧ v ≠ 61) := by
  decide

end EncFS
